import Mathlib

/-!
Verification of the dependency-graph builder (`graph_builder.py`) and the
requirement-string parsing of the remote fetcher (`dependency_fetcher.py`).

The Python code is embedded shallowly:

* the mutable `GraphBuilder` instance state (`self.graph`, `self.visited`,
  `self.current_path`, `self.cycles`) becomes an explicit `BuilderState`
  record threaded through the functions; Python's insertion-ordered `dict`
  becomes an association list updated in place, and the two Python `set`s
  become lists used only through membership / add / remove;
* the injected `dependency_fetcher.get_direct_dependencies`, which either
  returns a list of names or raises, becomes a function
  `String → Except Unit (List String)`;
* the recursive `_dfs` becomes a fuel-indexed structural recursion returning
  `Option BuilderState`; `none` means the recursion did not complete within
  the given call-stack depth (the embedding of nontermination), and the
  termination theorem shows that for a finite dependency source some fuel
  always yields `some`;
* `BuilderState.calls` is a ghost log recording, in order, every argument the
  traversal passes to the fetcher; it changes nothing else and exists to state
  the fetched-at-most-once property.
-/

/-- Substring test on character lists: does `needle` occur contiguously in
`hay`?  This is the embedding of Python's `substring in string`. -/
def startsWithList : List Char → List Char → Bool
  | [], _ => true
  | _ :: _, [] => false
  | n :: ns, h :: hs => n == h && startsWithList ns hs

/-- Python `needle in hay` for strings, on the character-list level. -/
def containsList (needle : List Char) : List Char → Bool
  | [] => needle.isEmpty
  | h :: hs => startsWithList needle (h :: hs) || containsList needle hs

/-- Python `str.lower()` (ASCII scope), character by character. -/
def lowerString (s : String) : String := String.mk (s.toList.map Char.toLower)

/-- Embeds `GraphBuilder.__init__`, line 20: the stored filter is
`filter_substring.lower() if filter_substring else ""`. -/
def normalize_filter (filter_substring : String) : String :=
  if filter_substring.isEmpty then "" else lowerString filter_substring

/-- Embeds `GraphBuilder.should_filter_package` (graph_builder.py lines 26-30):
an empty stored filter matches nothing; otherwise the (already lowercased)
filter must occur as a substring of `package_name.lower()`. -/
def should_filter_package (filt : String) (package_name : String) : Bool :=
  if filt.isEmpty then false
  else containsList filt.toList (package_name.toList.map Char.toLower)

/-- The four mutable structures of a `GraphBuilder` instance, plus the ghost
call log `calls` (arguments passed to `get_direct_dependencies`). -/
structure BuilderState where
  graph : List (String × List String)
  visited : List String
  current_path : List String
  cycles : List (List String)
  calls : List String
deriving DecidableEq

/-- The freshly reset state produced at the top of `build_graph`. -/
def initState : BuilderState := ⟨[], [], [], [], []⟩

/-- Python `set.add`: a no-op when the element is already present, otherwise
the element is inserted (we keep insertion order). -/
def addIfAbsent (l : List String) (x : String) : List String :=
  if x ∈ l then l else l ++ [x]

/-- Python `self.graph[package_name] = v` on an insertion-ordered dict:
replace the value at an existing key in place, otherwise append the new
binding at the end. -/
def insertEntry : List (String × List String) → String → List String →
    List (String × List String)
  | [], k, v => [(k, v)]
  | e :: rest, k, v => if e.1 = k then (k, v) :: rest else e :: insertEntry rest k v

/-- Python `dict` lookup `g[k]` (as an `Option`): first binding of `k`. -/
def lookupEntry : List (String × List String) → String → Option (List String)
  | [], _ => none
  | e :: rest, k => if e.1 = k then some e.2 else lookupEntry rest k

/-- The key set of the graph dict (Python `graph.keys()`), in order. -/
def keys (g : List (String × List String)) : List String := g.map Prod.fst

/-- The dependency list a fetch outcome supplies to the traversal: a raised
exception contributes no dependencies. -/
def depsOf : Except Unit (List String) → List String
  | Except.ok l => l
  | Except.error _ => []

/-- Embeds `GraphBuilder._dfs` (graph_builder.py lines 51-97), fuel-indexed.

Branches, in source order: the filter check (line 59), the cycle check
against `current_path` (line 63, recording `list(current_path) + [p]`),
the visited check (line 69), then the processed node: add to
`current_path`, call the fetcher (logged in `calls`); on success store the
filtered dependency list and recurse over it in order, on exception store
the empty list; the `finally` block removes the node from `current_path`
and adds it to `visited` on every completed exit path.  `none` propagates
fuel exhaustion, i.e. a traversal deeper than the available stack. -/
def dfs (fetch : String → Except Unit (List String)) (filt : String) :
    Nat → String → BuilderState → Option BuilderState
  | 0, _, _ => none
  | fuel + 1, package_name, st =>
    if should_filter_package filt package_name then
      some st
    else if package_name ∈ st.current_path then
      some { st with cycles := st.cycles ++ [st.current_path ++ [package_name]] }
    else if package_name ∈ st.visited then
      some st
    else
      let st1 : BuilderState :=
        { st with current_path := addIfAbsent st.current_path package_name,
                  calls := st.calls ++ [package_name] }
      let body : Option BuilderState :=
        match fetch package_name with
        | Except.ok dependencies =>
          let filtered_deps := dependencies.filter fun dep => !should_filter_package filt dep
          let st2 := { st1 with graph := insertEntry st1.graph package_name filtered_deps }
          List.foldlM (fun s dep => dfs fetch filt fuel dep s) st2 filtered_deps
        | Except.error _ =>
          some { st1 with graph := insertEntry st1.graph package_name [] }
      body.map fun st3 =>
        { st3 with current_path := st3.current_path.erase package_name,
                   visited := addIfAbsent st3.visited package_name }

/-- Embeds `GraphBuilder.build_graph` (graph_builder.py lines 32-49): reset the four
data-model structures (and the ghost call log), then run `_dfs` from the
root.  The incoming `st` is the arbitrary pre-existing instance state. -/
def build_graph (fetch : String → Except Unit (List String)) (filt : String)
    (fuel : Nat) (package_name : String) (st : BuilderState) : Option BuilderState :=
  dfs fetch filt fuel package_name
    { st with graph := [], visited := [], current_path := [], cycles := [], calls := [] }

/-- Embeds `GraphBuilder.get_reverse_dependencies` (graph_builder.py lines 99-116):
a linear scan over the built graph; no fetcher is involved (the function
does not even receive one). -/
def get_reverse_dependencies (st : BuilderState) (package_name : String) : List String :=
  st.graph.foldl
    (fun reverse_deps pd => if package_name ∈ pd.2 then reverse_deps ++ [pd.1] else reverse_deps)
    []

/-- Embeds `GraphBuilder.get_cycles` (graph_builder.py lines 118-120). -/
def get_cycles (st : BuilderState) : List (List String) := st.cycles

/-- Python `str.strip()` on a character list (ASCII whitespace scope). -/
def stripChars (cs : List Char) : List Char :=
  ((cs.dropWhile Char.isWhitespace).reverse.dropWhile Char.isWhitespace).reverse

/-- Python `req.split()[0]`: the first maximal whitespace-free run, or `none`
for the `IndexError` raised when `req` has no tokens. -/
def firstToken (cs : List Char) : Option (List Char) :=
  match cs.dropWhile Char.isWhitespace with
  | [] => none
  | c :: rest => some ((c :: rest).takeWhile fun ch => !ch.isWhitespace)

/-- One iteration of the requires_dist loop in
`DependencyFetcher._get_dependencies_from_pypi` (dependency_fetcher.py
line 58): `req.split()[0].split('(')[0].split('[')[0].strip()`.
`none` models the `IndexError` on a token-free string, which escapes to the
`except` clause and fails the whole fetch. -/
def parse_requirement (req : String) : Option String :=
  match firstToken req.toList with
  | none => none
  | some tok =>
    some (String.mk (stripChars ((tok.takeWhile fun c => !(c == '(')).takeWhile
      fun c => !(c == '['))))

/-- The requires_dist loop of `_get_dependencies_from_pypi` (lines 54-62):
parse each declaration in order, keep the non-empty results; a raised
`IndexError` anywhere aborts the fetch (`Except.error`). -/
def extract_pypi_dependencies : List String → Except Unit (List String)
  | [] => Except.ok []
  | req :: rest =>
    match parse_requirement req with
    | none => Except.error ()
    | some dep =>
      match extract_pypi_dependencies rest with
      | Except.error e => Except.error e
      | Except.ok deps => Except.ok (if dep.isEmpty then deps else dep :: deps)

/-! ### Concrete dependency sources used as scenario inputs -/

/-- The two-node cyclic stub source `A: B`, `B: A` of the spec scenarios. -/
def fetchAB : String → Except Unit (List String) := fun s =>
  if s = "A" then Except.ok ["B"]
  else if s = "B" then Except.ok ["A"]
  else Except.ok []

/-- The filtering scenario source `A: B Clib`, `B:` (no deps). -/
def fetchFilt : String → Except Unit (List String) := fun s =>
  if s = "A" then Except.ok ["B", "Clib"]
  else Except.ok []

/-- A source whose fetch of the non-root node `B` raises. -/
def fetchErr : String → Except Unit (List String) := fun s =>
  if s = "A" then Except.ok ["B", "C"]
  else if s = "B" then Except.error ()
  else Except.ok []

/-- The state `build_graph` produces on the cyclic source `fetchAB`. -/
def stAB : BuilderState :=
  ⟨[("A", ["B"]), ("B", ["A"])], ["B", "A"], [], [["A", "B", "A"]], ["A", "B"]⟩

/-- The state `build_graph` produces on the filter scenario source. -/
def stFilt : BuilderState := ⟨[("A", ["B"]), ("B", [])], ["B", "A"], [], [], ["A", "B"]⟩

/-! ### Invariant predicates used by the claim proofs -/

/-- No graph entry, key or listed dependency, matches the active filter. -/
def filterInv (filt : String) (st : BuilderState) : Prop :=
  ∀ k deps, (k, deps) ∈ st.graph →
    should_filter_package filt k = false ∧
    ∀ d ∈ deps, should_filter_package filt d = false

/-- Invariant of the ghost fetch log: no repeated argument, and every name
already handed to the fetcher is either fully processed (`visited`) or still
being processed (`current_path`). -/
def callsInv (st : BuilderState) : Prop :=
  st.calls.Nodup ∧ ∀ x ∈ st.calls, x ∈ st.visited ∨ x ∈ st.current_path

/-- Every identifier listed in some entry is a key already, still on the
active path (its entry was stored before recursing), or among the `pending`
dependencies the enclosing loop has not visited yet. -/
def graphClosedUpTo (st : BuilderState) (pending : List String) : Prop :=
  ∀ k deps, (k, deps) ∈ st.graph → ∀ d ∈ deps,
    d ∈ keys st.graph ∨ d ∈ st.current_path ∨ d ∈ pending

/-- Every visited package has a graph entry (stored in the `try` or in the
`except` arm before the `finally` marks it visited). -/
def visitedKeyed (st : BuilderState) : Prop :=
  ∀ x ∈ st.visited, x ∈ keys st.graph

/-- Universe members not yet touched by the traversal: the termination
measure for a finite dependency source with name universe `U`. -/
def unseenCount (U : List String) (st : BuilderState) : Nat :=
  (U.filter fun x => decide (x ∉ st.visited ∧ x ∉ st.current_path)).length

/-! ### Basic lemmas about the small data-structure operations -/

theorem foldlM_option_nil {σ α : Type} (f : σ → α → Option σ) (s : σ) :
    List.foldlM f s [] = some s := rfl

theorem foldlM_option_cons {σ α : Type} (f : σ → α → Option σ) (s : σ) (a : α) (l : List α) :
    List.foldlM f s (a :: l) = (f s a).bind (fun s' => List.foldlM f s' l) := rfl

theorem addIfAbsent_of_not_mem {l : List String} {x : String} (h : x ∉ l) :
    addIfAbsent l x = l ++ [x] := by
  simp [addIfAbsent, h]

theorem mem_addIfAbsent_self (l : List String) (x : String) : x ∈ addIfAbsent l x := by
  by_cases h : x ∈ l <;> simp [addIfAbsent, h]

theorem mem_addIfAbsent_of_mem {l : List String} {y : String} (x : String) (h : y ∈ l) :
    y ∈ addIfAbsent l x := by
  by_cases hx : x ∈ l <;> simp [addIfAbsent, hx, h]

theorem mem_addIfAbsent_iff (l : List String) (x y : String) :
    y ∈ addIfAbsent l x ↔ y ∈ l ∨ y = x := by
  by_cases hx : x ∈ l
  · simp only [addIfAbsent, if_pos hx]
    constructor
    · exact fun h => Or.inl h
    · rintro (h | h)
      · exact h
      · exact h ▸ hx
  · simp [addIfAbsent, hx]

theorem erase_append_singleton {l : List String} {p : String} (hp : p ∉ l) :
    (l ++ [p]).erase p = l := by
  induction l with
  | nil => simp
  | cons a as ih =>
    have ha : ¬(a == p) := by
      simp only [beq_iff_eq]
      intro h
      exact hp (h ▸ List.mem_cons_self a as)
    have has : p ∉ as := fun h => hp (List.mem_cons_of_mem a h)
    simp only [List.cons_append, List.erase_cons, if_neg ha]
    rw [ih has]

theorem lookupEntry_insertEntry_self (g : List (String × List String)) (k : String)
    (v : List String) : lookupEntry (insertEntry g k v) k = some v := by
  induction g with
  | nil => simp [insertEntry, lookupEntry]
  | cons e rest ih =>
    by_cases h : e.1 = k
    · simp [insertEntry, lookupEntry, h]
    · simp [insertEntry, lookupEntry, h, ih]

theorem mem_keys_cons (e : String × List String) (rest : List (String × List String))
    (x : String) : x ∈ keys (e :: rest) ↔ x = e.1 ∨ x ∈ keys rest := by
  simp [keys]

theorem mem_keys_insertEntry_of_mem {g : List (String × List String)} {x : String}
    (k : String) (v : List String) (hx : x ∈ keys g) : x ∈ keys (insertEntry g k v) := by
  induction g with
  | nil => simp [keys] at hx
  | cons e rest ih =>
    rcases (mem_keys_cons e rest x).mp hx with hx1 | hx1
    · by_cases h : e.1 = k
      · rw [insertEntry, if_pos h]
        exact (mem_keys_cons _ _ _).mpr (Or.inl (hx1.trans h))
      · rw [insertEntry, if_neg h]
        exact (mem_keys_cons _ _ _).mpr (Or.inl hx1)
    · by_cases h : e.1 = k
      · rw [insertEntry, if_pos h]
        exact (mem_keys_cons _ _ _).mpr (Or.inr hx1)
      · rw [insertEntry, if_neg h]
        exact (mem_keys_cons _ _ _).mpr (Or.inr (ih hx1))

theorem self_mem_keys_insertEntry (g : List (String × List String)) (k : String)
    (v : List String) : k ∈ keys (insertEntry g k v) := by
  induction g with
  | nil => simp [insertEntry, keys]
  | cons e rest ih =>
    by_cases h : e.1 = k
    · simp [insertEntry, keys, h]
    · simp only [insertEntry, if_neg h, keys, List.map_cons]
      exact List.mem_cons_of_mem _ ih

theorem mem_insertEntry {g : List (String × List String)} {k : String} {v : List String}
    {e : String × List String} (he : e ∈ insertEntry g k v) : e ∈ g ∨ e = (k, v) := by
  induction g with
  | nil => simp [insertEntry] at he; exact Or.inr he
  | cons e0 rest ih =>
    by_cases h : e0.1 = k
    · rw [insertEntry, if_pos h] at he
      rcases List.mem_cons.mp he with he | he
      · exact Or.inr he
      · exact Or.inl (List.mem_cons_of_mem _ he)
    · rw [insertEntry, if_neg h] at he
      rcases List.mem_cons.mp he with he | he
      · exact Or.inl (he ▸ List.mem_cons_self e0 rest)
      · rcases ih he with h1 | h1
        · exact Or.inl (List.mem_cons_of_mem _ h1)
        · exact Or.inr h1

/-! ### The generic invariant lemma for the dependency loop

`_dfs` recurses over the filtered dependency list with
`for dep in filtered_deps: self._dfs(dep)`; in the embedding that is a
`List.foldlM` in the `Option` monad.  Any reflexive-transitive relation that
every recursive call respects is respected by the whole loop. -/

theorem foldlM_dfs_rel (fetch : String → Except Unit (List String)) (filt : String) (n : Nat)
    (P : BuilderState → BuilderState → Prop)
    (hrefl : ∀ s, P s s)
    (htrans : ∀ a b c, P a b → P b c → P a c)
    (hstep : ∀ s d s', dfs fetch filt n d s = some s' → P s s') :
    ∀ (l : List String) (s s' : BuilderState),
      List.foldlM (fun s dep => dfs fetch filt n dep s) s l = some s' → P s s' := by
  intro l
  induction l with
  | nil =>
    intro s s' h
    rw [foldlM_option_nil] at h
    cases h
    exact hrefl s
  | cons d ds ih =>
    intro s s' h
    rw [foldlM_option_cons] at h
    cases hd : dfs fetch filt n d s with
    | none => rw [hd] at h; cases h
    | some s1 =>
      rw [hd] at h
      exact htrans _ _ _ (hstep s d s1 hd) (ih s1 s' h)

/-! ### The frame lemma

A completed `_dfs` call restores `current_path` exactly (the `finally` block
removes precisely the node the call added), never removes anything from
`visited`, and never removes a key from the graph. -/

theorem dfs_frame (fetch : String → Except Unit (List String)) (filt : String) :
    ∀ (fuel : Nat) (p : String) (st st' : BuilderState),
      dfs fetch filt fuel p st = some st' →
      st'.current_path = st.current_path ∧
      (∀ x ∈ st.visited, x ∈ st'.visited) ∧
      (∀ x ∈ keys st.graph, x ∈ keys st'.graph) := by
  intro fuel
  induction fuel with
  | zero => intro p st st' h; simp [dfs] at h
  | succ n ih =>
    intro p st st' h
    rw [dfs] at h
    split at h
    · cases h; exact ⟨rfl, fun x hx => hx, fun x hx => hx⟩
    · split at h
      · cases h; exact ⟨rfl, fun x hx => hx, fun x hx => hx⟩
      · split at h
        · cases h; exact ⟨rfl, fun x hx => hx, fun x hx => hx⟩
        · rename_i hfilt hpath hvis
          split at h
          · rename_i dependencies hfetch
            simp only [Option.map_eq_some'] at h
            obtain ⟨s3, hfold, hs3⟩ := h
            subst hs3
            have hF := foldlM_dfs_rel fetch filt n
              (fun a b => b.current_path = a.current_path ∧
                (∀ x ∈ a.visited, x ∈ b.visited) ∧
                (∀ x ∈ keys a.graph, x ∈ keys b.graph))
              (fun s => ⟨rfl, fun x hx => hx, fun x hx => hx⟩)
              (fun a b c hab hbc =>
                ⟨hbc.1.trans hab.1, fun x hx => hbc.2.1 x (hab.2.1 x hx),
                  fun x hx => hbc.2.2 x (hab.2.2 x hx)⟩)
              (fun s d s' hs => ih d s s' hs) _ _ _ hfold
            refine ⟨?_, ?_, ?_⟩
            · show s3.current_path.erase p = st.current_path
              rw [hF.1]
              show (addIfAbsent st.current_path p).erase p = st.current_path
              rw [addIfAbsent_of_not_mem hpath]
              exact erase_append_singleton hpath
            · intro x hx
              exact mem_addIfAbsent_of_mem p (hF.2.1 x hx)
            · intro x hx
              exact hF.2.2 x (mem_keys_insertEntry_of_mem _ _ hx)
          · rename_i e hfetch
            simp only [Option.map_eq_some'] at h
            obtain ⟨s3, hs3, hfin⟩ := h
            cases hs3
            subst hfin
            refine ⟨?_, ?_, ?_⟩
            · show (addIfAbsent st.current_path p).erase p = st.current_path
              rw [addIfAbsent_of_not_mem hpath]
              exact erase_append_singleton hpath
            · intro x hx
              exact mem_addIfAbsent_of_mem p hx
            · intro x hx
              exact mem_keys_insertEntry_of_mem _ _ hx

/-! ### The filter invariant (claim C1) -/

theorem dfs_filterInv (fetch : String → Except Unit (List String)) (filt : String) :
    ∀ (fuel : Nat) (p : String) (st st' : BuilderState),
      dfs fetch filt fuel p st = some st' → filterInv filt st → filterInv filt st' := by
  intro fuel
  induction fuel with
  | zero => intro p st st' h; simp [dfs] at h
  | succ n ih =>
    intro p st st' h hInv
    rw [dfs] at h
    split at h
    · cases h; exact hInv
    · split at h
      · cases h; exact hInv
      · split at h
        · cases h; exact hInv
        · rename_i hfilt hpath hvis
          rw [Bool.not_eq_true] at hfilt
          split at h
          · rename_i dependencies hfetch
            simp only [Option.map_eq_some'] at h
            obtain ⟨s3, hfold, hs3⟩ := h
            subst hs3
            have hInv2 : filterInv filt
                { st with
                    current_path := addIfAbsent st.current_path p,
                    calls := st.calls ++ [p],
                    graph := insertEntry st.graph p
                      (dependencies.filter fun dep => !should_filter_package filt dep) } := by
              intro k deps hk
              rcases mem_insertEntry hk with hk | hk
              · exact hInv k deps hk
              · cases hk
                refine ⟨hfilt, ?_⟩
                intro d hd
                have := (List.mem_filter.mp hd).2
                simpa using this
            have hF := foldlM_dfs_rel fetch filt n
              (fun a b => filterInv filt a → filterInv filt b)
              (fun s hs => hs)
              (fun a b c hab hbc hs => hbc (hab hs))
              (fun s d s' hs hinv => ih d s s' hs hinv) _ _ _ hfold hInv2
            intro k deps hk
            exact hF k deps hk
          · rename_i e hfetch
            simp only [Option.map_eq_some'] at h
            obtain ⟨s3, hs3, hfin⟩ := h
            cases hs3
            subst hfin
            intro k deps hk
            rcases mem_insertEntry hk with hk | hk
            · exact hInv k deps hk
            · cases hk
              exact ⟨hfilt, by intro d hd; simp at hd⟩

/-- C1: for every graph returned by `build_graph`, under any (stored) filter
substring, no key of the graph matches the active filter and no identifier
in any key's dependency list matches the active filter, where matching is
`should_filter_package` (case-insensitive substring containment, empty
filter matching nothing). -/
theorem c1_no_filtered_in_graph (fetch : String → Except Unit (List String)) (filt : String)
    (fuel : Nat) (root : String) (st0 st' : BuilderState)
    (h : build_graph fetch filt fuel root st0 = some st')
    (k : String) (deps : List String) (hk : (k, deps) ∈ st'.graph) :
    should_filter_package filt k = false ∧
      ∀ d ∈ deps, should_filter_package filt d = false := by
  unfold build_graph at h
  have h0 : filterInv filt
      { st0 with graph := [], visited := [], current_path := [], cycles := [], calls := [] } :=
    fun k d hk => absurd hk (List.not_mem_nil _)
  exact dfs_filterInv fetch filt fuel root _ st' h h0 k deps hk

/-- Witness for C1 at the `A: B Clib`, filter `"c"` scenario. -/
theorem c1_witness : should_filter_package "c" "B" = false :=
  (c1_no_filtered_in_graph fetchFilt "c" 3 "A" initState stFilt (by decide)
    "A" ["B"] (by decide)).2 "B" (by decide)

/-! ### Each package is fetched at most once (claim C6) -/

theorem dfs_callsInv (fetch : String → Except Unit (List String)) (filt : String) :
    ∀ (fuel : Nat) (p : String) (st st' : BuilderState),
      dfs fetch filt fuel p st = some st' → callsInv st → callsInv st' := by
  intro fuel
  induction fuel with
  | zero => intro p st st' h; simp [dfs] at h
  | succ n ih =>
    intro p st st' h hInv
    rw [dfs] at h
    split at h
    · cases h; exact hInv
    · split at h
      · cases h; exact ⟨hInv.1, hInv.2⟩
      · split at h
        · cases h; exact hInv
        · rename_i hfilt hpath hvis
          have hpcalls : p ∉ st.calls := by
            intro hp
            rcases hInv.2 p hp with hp1 | hp1
            · exact hvis hp1
            · exact hpath hp1
          have hnodup1 : (st.calls ++ [p]).Nodup := by
            refine List.nodup_append.mpr ⟨hInv.1, by simp, ?_⟩
            intro a ha hb
            simp only [List.mem_singleton] at hb
            subst hb
            exact hpcalls ha
          have hmem1 : ∀ x ∈ st.calls ++ [p],
              x ∈ st.visited ∨ x ∈ addIfAbsent st.current_path p := by
            intro x hx
            rcases List.mem_append.mp hx with hx | hx
            · rcases hInv.2 x hx with hx1 | hx1
              · exact Or.inl hx1
              · exact Or.inr (mem_addIfAbsent_of_mem p hx1)
            · simp only [List.mem_singleton] at hx
              subst hx
              exact Or.inr (mem_addIfAbsent_self _ _)
          split at h
          · rename_i dependencies hfetch
            simp only [Option.map_eq_some'] at h
            obtain ⟨s3, hfold, hs3⟩ := h
            subst hs3
            have hC3 : callsInv s3 := by
              refine foldlM_dfs_rel fetch filt n
                (fun a b => callsInv a → callsInv b)
                (fun s hs => hs)
                (fun a b c hab hbc hs => hbc (hab hs))
                (fun s d s' hs hinv => ih d s s' hs hinv) _ _ _ hfold ⟨hnodup1, hmem1⟩
            have hpath3 : s3.current_path = addIfAbsent st.current_path p :=
              (foldlM_dfs_rel fetch filt n
                (fun a b => b.current_path = a.current_path)
                (fun s => rfl)
                (fun a b c hab hbc => hbc.trans hab)
                (fun s d s' hs => (dfs_frame fetch filt n d s s' hs).1) _ _ _ hfold)
            refine ⟨hC3.1, ?_⟩
            intro x hx
            rcases hC3.2 x hx with hx1 | hx1
            · exact Or.inl (mem_addIfAbsent_of_mem p hx1)
            · rw [hpath3, addIfAbsent_of_not_mem hpath] at hx1
              by_cases hxp : x = p
              · exact Or.inl (hxp ▸ mem_addIfAbsent_self _ _)
              · refine Or.inr ?_
                show x ∈ s3.current_path.erase p
                rw [hpath3, addIfAbsent_of_not_mem hpath, erase_append_singleton hpath]
                rcases List.mem_append.mp hx1 with hx2 | hx2
                · exact hx2
                · simp only [List.mem_singleton] at hx2
                  exact absurd hx2 hxp
          · rename_i e hfetch
            simp only [Option.map_eq_some'] at h
            obtain ⟨s3, hs3, hfin⟩ := h
            cases hs3
            subst hfin
            refine ⟨hnodup1, ?_⟩
            intro x hx
            rcases hmem1 x hx with hx1 | hx1
            · exact Or.inl (mem_addIfAbsent_of_mem p hx1)
            · rw [addIfAbsent_of_not_mem hpath] at hx1
              by_cases hxp : x = p
              · exact Or.inl (hxp ▸ mem_addIfAbsent_self _ _)
              · refine Or.inr ?_
                show x ∈ (addIfAbsent st.current_path p).erase p
                rw [addIfAbsent_of_not_mem hpath, erase_append_singleton hpath]
                rcases List.mem_append.mp hx1 with hx2 | hx2
                · exact hx2
                · simp only [List.mem_singleton] at hx2
                  exact absurd hx2 hxp

/-- C6: during a single `build_graph` call, `get_direct_dependencies` is
invoked at most once with any given package name (the ghost log `calls`,
which records every fetch argument in order, has no duplicates), no matter
how many edges lead to the package. -/
theorem c6_fetch_at_most_once (fetch : String → Except Unit (List String)) (filt : String)
    (fuel : Nat) (root : String) (st0 st' : BuilderState)
    (h : build_graph fetch filt fuel root st0 = some st') :
    st'.calls.Nodup := by
  unfold build_graph at h
  have h0 : callsInv
      { st0 with graph := [], visited := [], current_path := [], cycles := [], calls := [] } :=
    ⟨List.nodup_nil, fun x hx => absurd hx (List.not_mem_nil _)⟩
  exact (dfs_callsInv fetch filt fuel root _ st' h h0).1

/-- Witness for C6 on the cyclic two-node source: even though two edges lead
to `A`, it is fetched once. -/
theorem c6_witness : (["A", "B"] : List String).Nodup :=
  c6_fetch_at_most_once fetchAB "" 3 "A" initState stAB (by decide)

/-! ### Closure of the graph under listed dependencies (claim C10) -/

theorem dfs_closure (fetch : String → Except Unit (List String)) (filt : String) :
    ∀ (fuel : Nat) (p : String) (st st' : BuilderState) (pending : List String),
      dfs fetch filt fuel p st = some st' →
      graphClosedUpTo st pending → visitedKeyed st →
      graphClosedUpTo st' pending ∧ visitedKeyed st' ∧
        (should_filter_package filt p = true ∨ p ∈ keys st'.graph ∨ p ∈ st.current_path) := by
  intro fuel
  induction fuel with
  | zero => intro p st st' pending h; simp [dfs] at h
  | succ n ih =>
    intro p st st' pending h hG hV
    rw [dfs] at h
    split at h
    · rename_i hfilt
      cases h
      exact ⟨hG, hV, Or.inl hfilt⟩
    · split at h
      · rename_i hcyc
        cases h
        exact ⟨fun k deps hk => hG k deps hk, hV, Or.inr (Or.inr hcyc)⟩
      · split at h
        · rename_i hvis
          cases h
          exact ⟨hG, hV, Or.inr (Or.inl (hV p hvis))⟩
        · rename_i hfilt hpath hvis
          split at h
          · rename_i dependencies hfetch
            simp only [Option.map_eq_some'] at h
            obtain ⟨s3, hfold, hs3⟩ := h
            subst hs3
            set fdeps := dependencies.filter fun dep => !should_filter_package filt dep with hfdeps
            set st2 : BuilderState :=
              { st with
                  current_path := addIfAbsent st.current_path p,
                  calls := st.calls ++ [p],
                  graph := insertEntry st.graph p fdeps } with hst2
            have hG2 : graphClosedUpTo st2 (pending ++ fdeps) := by
              intro k deps hk d hd
              rcases mem_insertEntry hk with hk | hk
              · rcases hG k deps hk d hd with h1 | h1 | h1
                · exact Or.inl (mem_keys_insertEntry_of_mem _ _ h1)
                · exact Or.inr (Or.inl (mem_addIfAbsent_of_mem p h1))
                · exact Or.inr (Or.inr (List.mem_append.mpr (Or.inl h1)))
              · cases hk
                exact Or.inr (Or.inr (List.mem_append.mpr (Or.inr hd)))
            have hV2 : visitedKeyed st2 :=
              fun x hx => mem_keys_insertEntry_of_mem _ _ (hV x hx)
            have hfilt_deps : ∀ d ∈ fdeps, should_filter_package filt d = false := by
              intro d hd
              have := (List.mem_filter.mp hd).2
              simpa using this
            have hinner : ∀ (l : List String), (∀ d ∈ l, should_filter_package filt d = false) →
                ∀ (s s' : BuilderState),
                List.foldlM (fun s dep => dfs fetch filt n dep s) s l = some s' →
                graphClosedUpTo s (pending ++ l) → visitedKeyed s →
                graphClosedUpTo s' pending ∧ visitedKeyed s' := by
              intro l
              induction l with
              | nil =>
                intro _ s s' hfd hGs hVs
                rw [foldlM_option_nil] at hfd
                cases hfd
                rw [List.append_nil] at hGs
                exact ⟨hGs, hVs⟩
              | cons d rest ihl =>
                intro hfl s s' hfd hGs hVs
                rw [foldlM_option_cons] at hfd
                cases hd1 : dfs fetch filt n d s with
                | none => rw [hd1] at hfd; cases hfd
                | some s1 =>
                  rw [hd1] at hfd
                  have hstep := ih d s s1 (pending ++ d :: rest) hd1 hGs hVs
                  have hfr := dfs_frame fetch filt n d s s1 hd1
                  have hdcov : d ∈ keys s1.graph ∨ d ∈ s1.current_path := by
                    rcases hstep.2.2 with h1 | h1 | h1
                    · rw [hfl d (List.mem_cons_self d rest)] at h1; cases h1
                    · exact Or.inl h1
                    · exact Or.inr (hfr.1 ▸ h1)
                  have hGs1 : graphClosedUpTo s1 (pending ++ rest) := by
                    intro k deps hk e he
                    rcases hstep.1 k deps hk e he with h1 | h1 | h1
                    · exact Or.inl h1
                    · exact Or.inr (Or.inl h1)
                    · rcases List.mem_append.mp h1 with h2 | h2
                      · exact Or.inr (Or.inr (List.mem_append.mpr (Or.inl h2)))
                      · rcases List.mem_cons.mp h2 with h3 | h3
                        · subst h3
                          rcases hdcov with h4 | h4
                          · exact Or.inl h4
                          · exact Or.inr (Or.inl h4)
                        · exact Or.inr (Or.inr (List.mem_append.mpr (Or.inr h3)))
                  exact ihl (fun e he => hfl e (List.mem_cons_of_mem d he)) s1 s' hfd
                    hGs1 hstep.2.1
            have hmain := hinner fdeps hfilt_deps st2 s3 hfold hG2 hV2
            have hpath3 : s3.current_path = addIfAbsent st.current_path p :=
              foldlM_dfs_rel fetch filt n
                (fun a b => b.current_path = a.current_path)
                (fun s => rfl)
                (fun a b c hab hbc => hbc.trans hab)
                (fun s d s' hs => (dfs_frame fetch filt n d s s' hs).1) _ _ _ hfold
            have hkeys3 : ∀ x ∈ keys st2.graph, x ∈ keys s3.graph :=
              foldlM_dfs_rel fetch filt n
                (fun a b => ∀ x ∈ keys a.graph, x ∈ keys b.graph)
                (fun s x hx => hx)
                (fun a b c hab hbc x hx => hbc x (hab x hx))
                (fun s d s' hs => (dfs_frame fetch filt n d s s' hs).2.2) _ _ _ hfold
            have hpkeys : p ∈ keys s3.graph :=
              hkeys3 p (self_mem_keys_insertEntry _ _ _)
            refine ⟨?_, ?_, Or.inr (Or.inl hpkeys)⟩
            · intro k deps hk d hd
              rcases hmain.1 k deps hk d hd with h1 | h1 | h1
              · exact Or.inl h1
              · rw [hpath3, addIfAbsent_of_not_mem hpath] at h1
                by_cases hdp : d = p
                · exact Or.inl (hdp ▸ hpkeys)
                · refine Or.inr (Or.inl ?_)
                  show d ∈ s3.current_path.erase p
                  rw [hpath3, addIfAbsent_of_not_mem hpath, erase_append_singleton hpath]
                  rcases List.mem_append.mp h1 with h2 | h2
                  · exact h2
                  · simp only [List.mem_singleton] at h2
                    exact absurd h2 hdp
              · exact Or.inr (Or.inr h1)
            · intro x hx
              rcases (mem_addIfAbsent_iff _ _ _).mp hx with hx1 | hx1
              · exact hmain.2 x hx1
              · exact hx1 ▸ hpkeys
          · rename_i e hfetch
            simp only [Option.map_eq_some'] at h
            obtain ⟨s3, hs3, hfin⟩ := h
            cases hs3
            subst hfin
            have hpkeys : p ∈ keys (insertEntry st.graph p []) :=
              self_mem_keys_insertEntry _ _ _
            refine ⟨?_, ?_, Or.inr (Or.inl hpkeys)⟩
            · intro k deps hk d hd
              rcases mem_insertEntry hk with hk | hk
              · rcases hG k deps hk d hd with h1 | h1 | h1
                · exact Or.inl (mem_keys_insertEntry_of_mem _ _ h1)
                · refine Or.inr (Or.inl ?_)
                  show d ∈ (addIfAbsent st.current_path p).erase p
                  rw [addIfAbsent_of_not_mem hpath, erase_append_singleton hpath]
                  exact h1
                · exact Or.inr (Or.inr h1)
              · cases hk
                exact absurd hd (List.not_mem_nil _)
            · intro x hx
              rcases (mem_addIfAbsent_iff _ _ _).mp hx with hx1 | hx1
              · exact mem_keys_insertEntry_of_mem _ _ (hV x hx1)
              · exact hx1 ▸ hpkeys

/-- C10: every graph returned by `build_graph` is closed under listed
dependencies: any identifier occurring in some entry's dependency list is
itself a key of the graph. -/
theorem c10_graph_closed (fetch : String → Except Unit (List String)) (filt : String)
    (fuel : Nat) (root : String) (st0 st' : BuilderState)
    (h : build_graph fetch filt fuel root st0 = some st')
    (k : String) (deps : List String) (hk : (k, deps) ∈ st'.graph)
    (d : String) (hd : d ∈ deps) : d ∈ keys st'.graph := by
  unfold build_graph at h
  have h0G : graphClosedUpTo
      { st0 with graph := [], visited := [], current_path := [], cycles := [], calls := [] } [] :=
    fun k deps hk => absurd hk (List.not_mem_nil _)
  have h0V : visitedKeyed
      { st0 with graph := [], visited := [], current_path := [], cycles := [], calls := [] } :=
    fun x hx => absurd hx (List.not_mem_nil _)
  have hmain := dfs_closure fetch filt fuel root _ st' [] h h0G h0V
  rcases hmain.1 k deps hk d hd with h1 | h1 | h1
  · exact h1
  · have hp := (dfs_frame fetch filt fuel root _ st' h).1
    rw [hp] at h1
    exact absurd h1 (List.not_mem_nil _)
  · exact absurd h1 (List.not_mem_nil _)

/-- Witness for C10: in the cyclic scenario graph, the listed dependency
`"B"` of `"A"` is itself a key. -/
theorem c10_witness : ("B" : String) ∈ keys stAB.graph :=
  c10_graph_closed fetchAB "" 3 "A" initState stAB (by decide) "A" ["B"] (by decide)
    "B" (by decide)

/-! ### Termination on a finite dependency source (claim C2)

A dependency source is finite when some finite name universe `U` contains the
root and is closed under the dependency lists it returns.  The measure is the
number of universe members that are neither visited nor on the path; every
recursive call strictly decreases it, so `U.length + 1` stack frames always
suffice. -/

theorem filter_sublist_of_imp {α : Type} (l : List α) (P Q : α → Bool)
    (h : ∀ a, P a = true → Q a = true) : List.Sublist (l.filter P) (l.filter Q) := by
  induction l with
  | nil => simp
  | cons a as ih =>
    by_cases hP : P a = true
    · rw [List.filter_cons_of_pos hP, List.filter_cons_of_pos (h a hP)]
      exact ih.cons₂ a
    · rw [List.filter_cons_of_neg (by simpa using hP)]
      by_cases hQ : Q a = true
      · rw [List.filter_cons_of_pos hQ]
        exact ih.cons a
      · rw [List.filter_cons_of_neg (by simpa using hQ)]
        exact ih

theorem length_filter_lt {α : Type} (l : List α) (P Q : α → Bool)
    (h : ∀ a, P a = true → Q a = true)
    (x : α) (hx : x ∈ l) (hQ : Q x = true) (hP : P x = false) :
    (l.filter P).length < (l.filter Q).length := by
  have hsub := filter_sublist_of_imp l P Q h
  rcases Nat.lt_or_ge (l.filter P).length (l.filter Q).length with hlt | hge
  · exact hlt
  · exfalso
    have heq : l.filter P = l.filter Q :=
      hsub.eq_of_length (Nat.le_antisymm hsub.length_le hge)
    have hxQ : x ∈ l.filter Q := List.mem_filter.mpr ⟨hx, hQ⟩
    rw [← heq] at hxQ
    have := (List.mem_filter.mp hxQ).2
    rw [hP] at this
    cases this

theorem unseenCount_le_of_frame (U : List String) {st st' : BuilderState}
    (hpath : st'.current_path = st.current_path)
    (hvis : ∀ x ∈ st.visited, x ∈ st'.visited) :
    unseenCount U st' ≤ unseenCount U st := by
  refine (filter_sublist_of_imp U _ _ ?_).length_le
  intro a ha
  have ha' := of_decide_eq_true ha
  refine decide_eq_true ?_
  refine ⟨fun hmem => ha'.1 (hvis a hmem), ?_⟩
  rw [← hpath]
  exact ha'.2

theorem dfs_total (fetch : String → Except Unit (List String)) (filt : String)
    (U : List String) (hU : ∀ p ∈ U, ∀ d ∈ depsOf (fetch p), d ∈ U) :
    ∀ (fuel : Nat) (p : String) (st : BuilderState),
      p ∈ U → unseenCount U st < fuel → (dfs fetch filt fuel p st).isSome = true := by
  intro fuel
  induction fuel with
  | zero => intro p st hp hm; exact absurd hm (Nat.not_lt_zero _)
  | succ n ih =>
    intro p st hp hm
    rw [dfs]
    split
    · simp
    · split
      · simp
      · split
        · simp
        · rename_i hfilt hpath hvis
          split
          · rename_i dependencies hfetch
            simp only [Option.isSome_map']
            set fdeps := dependencies.filter fun dep => !should_filter_package filt dep
              with hfdeps
            set st2 : BuilderState :=
              { st with
                  current_path := addIfAbsent st.current_path p,
                  calls := st.calls ++ [p],
                  graph := insertEntry st.graph p fdeps } with hst2
            have hdecr : unseenCount U st2 < unseenCount U st := by
              refine length_filter_lt U _ _ ?_ p hp ?_ ?_
              · intro a ha
                have ha' := of_decide_eq_true ha
                refine decide_eq_true ⟨ha'.1, fun hmem => ha'.2 ?_⟩
                exact mem_addIfAbsent_of_mem p hmem
              · exact decide_eq_true ⟨hvis, hpath⟩
              · refine decide_eq_false ?_
                intro hcon
                exact hcon.2 (mem_addIfAbsent_self _ _)
            have hdU : ∀ d ∈ fdeps, d ∈ U := by
              intro d hd
              have hmemdeps : d ∈ dependencies := (List.mem_filter.mp hd).1
              have : d ∈ depsOf (fetch p) := by rw [hfetch]; exact hmemdeps
              exact hU p hp d this
            have hinner : ∀ (l : List String), (∀ d ∈ l, d ∈ U) →
                ∀ (s : BuilderState), unseenCount U s < n →
                (List.foldlM (fun s dep => dfs fetch filt n dep s) s l).isSome = true := by
              intro l
              induction l with
              | nil => intro _ s _; rw [foldlM_option_nil]; rfl
              | cons d rest ihl =>
                intro hl s hs
                rw [foldlM_option_cons]
                have hsome := ih d s (hl d (List.mem_cons_self d rest)) hs
                cases hd1 : dfs fetch filt n d s with
                | none => rw [hd1] at hsome; cases hsome
                | some s1 =>
                  have hfr := dfs_frame fetch filt n d s s1 hd1
                  have hle := unseenCount_le_of_frame U hfr.1 hfr.2.1
                  exact ihl (fun e he => hl e (List.mem_cons_of_mem d he)) s1
                    (Nat.lt_of_le_of_lt hle hs)
            exact hinner fdeps hdU st2 (by omega)
          · rename_i e hfetch
            simp

/-- C2: for every finite dependency source — one whose names live in a finite
universe `U` containing the root and closed under returned dependency lists,
cyclic edges allowed — `build_graph` terminates: `U.length + 1` stack frames
(fuel) always produce a result. -/
theorem c2_terminates (fetch : String → Except Unit (List String)) (filt root : String)
    (st0 : BuilderState) (U : List String) (fuel : Nat)
    (hroot : root ∈ U) (hU : ∀ p ∈ U, ∀ d ∈ depsOf (fetch p), d ∈ U)
    (hfuel : U.length < fuel) :
    (build_graph fetch filt fuel root st0).isSome = true := by
  unfold build_graph
  apply dfs_total fetch filt U hU fuel root _ hroot
  calc unseenCount U _ ≤ U.length := List.length_filter_le _ _
    _ < fuel := hfuel

/-- Witness for C2 on the cyclic source `A: B`, `B: A`. -/
theorem c2_witness : (build_graph fetchAB "" 3 "A" initState).isSome = true :=
  c2_terminates fetchAB "" "A" initState ["A", "B"] 3 (by decide) (by decide) (by decide)

/-! ### Fetch failure is absorbed locally (claim C3)

The `except` arm of `_dfs` makes a node whose fetch raises behave exactly
like a node whose fetch returns the empty list: the whole traversal only
depends on the fetcher through `depsOf`. -/

theorem dfs_congr (fetch fetch' : String → Except Unit (List String)) (filt : String)
    (hsame : ∀ q, depsOf (fetch q) = depsOf (fetch' q)) :
    ∀ (fuel : Nat) (p : String) (st : BuilderState),
      dfs fetch filt fuel p st = dfs fetch' filt fuel p st := by
  intro fuel
  induction fuel with
  | zero => intro p st; rfl
  | succ n ih =>
    intro p st
    have hfun : (fun (s : BuilderState) (dep : String) => dfs fetch filt n dep s)
        = fun s dep => dfs fetch' filt n dep s :=
      funext fun s => funext fun dep => ih dep s
    rw [dfs]
    conv_rhs => rw [dfs]
    by_cases h1 : should_filter_package filt p = true
    · simp only [h1, if_true]
    · simp only [h1, if_false]
      by_cases h2 : p ∈ st.current_path
      · simp only [if_pos h2]
      · simp only [if_neg h2]
        by_cases h3 : p ∈ st.visited
        · simp only [if_pos h3]
        · simp only [if_neg h3]
          have hp := hsame p
          cases hf : fetch p with
          | ok deps =>
            cases hf' : fetch' p with
            | ok deps' =>
              rw [hf, hf'] at hp
              simp only [depsOf] at hp
              subst hp
              rw [hfun]
            | error e' =>
              rw [hf, hf'] at hp
              simp only [depsOf] at hp
              subst hp
              rfl
          | error e =>
            cases hf' : fetch' p with
            | ok deps' =>
              rw [hf, hf'] at hp
              simp only [depsOf] at hp
              subst hp
              rfl
            | error e' => rfl

/-- C3: if the dependency source raises on fetching node `p` (and `p` is not
filtered, already visited, or on the path), then (i) the whole traversal,
from any start node, is exactly the traversal one would get if `p` had no
dependencies, and (ii) processing `p` records it in the graph with an empty
dependency list and returns normally — no exception escapes. -/
theorem c3_fetch_error_recovered (fetch : String → Except Unit (List String))
    (filt p : String) (herr : fetch p = Except.error ())
    (hfiltp : should_filter_package filt p = false)
    (fuel : Nat) (q : String) (st : BuilderState)
    (hpath : p ∉ st.current_path) (hvis : p ∉ st.visited) :
    dfs fetch filt fuel q st =
      dfs (fun x => if x = p then Except.ok [] else fetch x) filt fuel q st
    ∧ (dfs fetch filt (fuel + 1) p st).bind (fun s3 => lookupEntry s3.graph p) = some [] := by
  constructor
  · apply dfs_congr
    intro r
    by_cases hr : r = p
    · subst hr
      rw [herr]
      simp [depsOf]
    · simp [hr]
  · rw [dfs]
    rw [if_neg (by rw [hfiltp]; simp), if_neg hpath, if_neg hvis, herr]
    simp only [Option.map_some, Option.bind_some]
    exact lookupEntry_insertEntry_self _ _ _

/-- Witness for C3: the source `fetchErr` raises on `B`; running from `A`
equals running with `B` mapped to the empty list, and processing `B` itself
stores `B -> []`. -/
theorem c3_witness :
    (dfs fetchErr "" 5 "A" initState =
      dfs (fun x => if x = "B" then Except.ok [] else fetchErr x) "" 5 "A" initState)
    ∧ (dfs fetchErr "" 6 "B" initState).bind (fun s3 => lookupEntry s3.graph "B")
        = some [] :=
  c3_fetch_error_recovered fetchErr "" "B" (by rfl) (by decide) 5 "A" initState
    (by decide) (by decide)

/-! ### Reverse dependencies (claim C7) -/

theorem mem_reverse_deps_foldl (X : String) :
    ∀ (g : List (String × List String)) (acc : List String) (p : String),
      p ∈ g.foldl
        (fun reverse_deps pd => if X ∈ pd.2 then reverse_deps ++ [pd.1] else reverse_deps)
        acc
      ↔ p ∈ acc ∨ ∃ deps, (p, deps) ∈ g ∧ X ∈ deps := by
  intro g
  induction g with
  | nil => intro acc p; simp
  | cons e rest ih =>
    intro acc p
    rw [List.foldl_cons]
    by_cases hX : X ∈ e.2
    · rw [if_pos hX, ih]
      constructor
      · rintro (h | h)
        · rcases List.mem_append.mp h with h | h
          · exact Or.inl h
          · simp only [List.mem_singleton] at h
            subst h
            exact Or.inr ⟨e.2, List.mem_cons_self e rest, hX⟩
        · obtain ⟨deps, hmem, hXd⟩ := h
          exact Or.inr ⟨deps, List.mem_cons_of_mem e hmem, hXd⟩
      · rintro (h | h)
        · exact Or.inl (List.mem_append.mpr (Or.inl h))
        · obtain ⟨deps, hmem, hXd⟩ := h
          rcases List.mem_cons.mp hmem with hmem | hmem
          · refine Or.inl (List.mem_append.mpr (Or.inr ?_))
            simp only [List.mem_singleton]
            exact congrArg Prod.fst hmem
          · exact Or.inr ⟨deps, hmem, hXd⟩
    · rw [if_neg hX, ih]
      constructor
      · rintro (h | h)
        · exact Or.inl h
        · obtain ⟨deps, hmem, hXd⟩ := h
          exact Or.inr ⟨deps, List.mem_cons_of_mem e hmem, hXd⟩
      · rintro (h | h)
        · exact Or.inl h
        · obtain ⟨deps, hmem, hXd⟩ := h
          rcases List.mem_cons.mp hmem with hmem | hmem
          · exfalso
            apply hX
            have : deps = e.2 := congrArg Prod.snd hmem
            exact this ▸ hXd
          · exact Or.inr ⟨deps, hmem, hXd⟩

/-- C7: on any already-built state, `get_reverse_dependencies st X` contains
exactly the keys whose stored dependency list contains `X` (no re-fetching is
possible: the function takes no fetcher), and is empty when no entry lists
`X`. -/
theorem c7_reverse_dependencies (st : BuilderState) (X : String) :
    (∀ p, p ∈ get_reverse_dependencies st X ↔ ∃ deps, (p, deps) ∈ st.graph ∧ X ∈ deps)
    ∧ ((∀ pd ∈ st.graph, X ∉ pd.2) → get_reverse_dependencies st X = []) := by
  constructor
  · intro p
    unfold get_reverse_dependencies
    rw [mem_reverse_deps_foldl]
    simp
  · intro hnone
    rw [List.eq_nil_iff_forall_not_mem]
    intro p hp
    unfold get_reverse_dependencies at hp
    rw [mem_reverse_deps_foldl] at hp
    rcases hp with hp | hp
    · exact absurd hp (List.not_mem_nil _)
    · obtain ⟨deps, hmem, hXd⟩ := hp
      exact hnone (p, deps) hmem hXd

/-- Witness for C7: in the cyclic scenario graph nothing depends on `"C"`,
so its reverse-dependency list is empty. -/
theorem c7_witness : get_reverse_dependencies stAB "C" = [] :=
  (c7_reverse_dependencies stAB "C").2 (by decide)

/-! ### Idempotence of `build_graph` (claim C8) -/

/-- C8: `build_graph` resets all four data-model structures (lines 42-45)
before traversing, so its result does not depend on the instance state left
by earlier calls: two calls with the same root, fetcher, filter and fuel
return identical results — in particular identical graphs. -/
theorem c8_idempotent (fetch : String → Except Unit (List String)) (filt : String)
    (fuel : Nat) (root : String) (st1 st2 : BuilderState) :
    build_graph fetch filt fuel root st1 = build_graph fetch filt fuel root st2 := rfl

/-! ### The two-node cycle scenario (claims C4 and C5) -/

/-- C4 counterexample: on the stub source `A: B`, `B: A` with no filter, the
code stores exactly `A -> [B]` together with `B -> [A]` — `B`'s entry is
neither empty nor absent, contrary to the claim. -/
theorem c4_counterexample :
    (build_graph fetchAB "" 3 "A" initState).map
      (fun st => (lookupEntry st.graph "A", lookupEntry st.graph "B"))
      = some (some ["B"], some ["A"]) := by decide

/-- C4 amended: on the stub source `A: B`, `B: A` with no filter,
`build_graph "A"` yields the dependency lists `A -> [B]` and `B -> [A]`;
the back-edge truncates only the recursive expansion (recording the cycle
`[A, B, A]` instead of re-expanding `A`), not the stored entry of `B`. -/
theorem c4_amended_back_edge :
    build_graph fetchAB "" 3 "A" initState = some stAB := by decide

/-- C5: on the stub source `A: B`, `B: A` with no filter, `build_graph "A"`
records at least one cycle containing both `A` and `B`, and the graph still
has keys for both `A` and `B`. -/
theorem c5_cycle_recorded :
    ∃ st, build_graph fetchAB "" 3 "A" initState = some st
      ∧ (∃ c, c ∈ get_cycles st ∧ "A" ∈ c ∧ "B" ∈ c)
      ∧ "A" ∈ keys st.graph ∧ "B" ∈ keys st.graph :=
  ⟨stAB, by decide, ⟨["A", "B", "A"], by decide, by decide, by decide⟩, by decide, by decide⟩

/-! ### The PyPI requirement parsing (claim C9) -/

/-- C9, evaluated at the failing input: the requirement string
`"package>=1.0"` (a format the code's own comment lists and claims to strip)
is returned with its version constraint intact, not as the bare identifier
`"package"` — only parenthesised constraints, bracketed extras and
whitespace-separated tails are stripped. -/
theorem c9_version_constraint_not_stripped :
    parse_requirement "package>=1.0" = some "package>=1.0"
      ∧ ("package>=1.0" : String) ≠ "package" :=
  ⟨by decide, by decide⟩

